import Mathlib

attribute [local semireducible] Rat.add Rat.mul Rat.inv Rat.sub

/-!
Verification of the branch-and-bound driver in `src/branch_and_bound.py`.

The driver (`branch_and_bound`) performs an iterative depth-first search over
LP-relaxation subproblems.  The LP solver (gurobi) is modelled as an abstract
oracle `Model → OracleResult`; wall-clock time is modelled as a sequence
`clock : ℕ → ℚ` giving the elapsed time (measured from `start_time`) at the
n-th `time.time()` call made after the timer was started.  Rational numbers
stand for the Python floats; `WithTop ℚ` adds the `float('inf')` value that
`best_objective` and `best_bound` are initialised to (no other infinity ever
reaches those variables).  Python object identities (`id(model)`) are modelled
by a monotone counter issued at model-copy time, so distinct models have
distinct ids.
-/

/-- The gurobi status code `GRB.OPTIMAL`. -/
def GRB_OPTIMAL : ℕ := 2

/-- A decision variable of a model: its name, bounds, and the value `var.x`
assigned to it by the most recent solve. -/
structure Var where
  name : String
  lb : ℚ
  ub : ℚ
  x : ℚ
  deriving DecidableEq, Repr

/-- A gurobi model as the driver sees it: an identity (`id(model)`), the
variable list (bounds mutable, in declaration order), the status and objective
attributes filled in by `optimize`, and the `Params.TimeLimit` parameter.
The objective function and constraint matrix are never inspected by the
driver, so they live inside the abstract oracle instead. -/
structure Model where
  mid : ℕ
  vars : List Var
  status : ℕ
  objVal : ℚ
  timeLimitParam : ℚ
  deriving DecidableEq, Repr

/-- What one oracle (LP solver) call reports: a status code, the objective
value, and the solution values for the variables in declaration order. -/
structure OracleResult where
  status : ℕ
  objVal : ℚ
  xs : List ℚ
  deriving DecidableEq, Repr

/-- Write the solution values onto the variable list positionally
(`var.x` attributes after a solve). -/
def setXs : List Var → List ℚ → List Var
  | [], _ => []
  | vs, [] => vs
  | v :: vs, q :: qs => { v with x := q } :: setXs vs qs

/-- The effect of `current_model.optimize()`: ask the oracle and store status,
objective and variable values on the model. -/
def optimize (oracle : Model → OracleResult) (m : Model) : Model :=
  let r := oracle m
  { m with status := r.status, objVal := r.objVal, vars := setXs m.vars r.xs }

/-- The effect of `model.copy()`: an identical model under a fresh identity. -/
def copyModel (m : Model) (newId : ℕ) : Model :=
  { m with mid := newId }

/-- The effect of `model.getVarByName(name).lb = v`: set the lower bound of
the first variable with the given name. -/
def setVarLb (m : Model) (n : String) (v : ℚ) : Model :=
  { m with vars := setLbAux m.vars n v }
where setLbAux : List Var → String → ℚ → List Var
  | [], _, _ => []
  | w :: ws, n, v => if w.name = n then { w with lb := v } :: ws else w :: setLbAux ws n v

/-- The effect of `model.getVarByName(name).ub = v`: set the upper bound of
the first variable with the given name. -/
def setVarUb (m : Model) (n : String) (v : ℚ) : Model :=
  { m with vars := setUbAux m.vars n v }
where setUbAux : List Var → String → ℚ → List Var
  | [], _, _ => []
  | w :: ws, n, v => if w.name = n then { w with ub := v } :: ws else w :: setUbAux ws n v

/-- Python `int()` applied to a float: truncation toward zero. -/
def ratTrunc (q : ℚ) : ℤ :=
  if 0 ≤ q then ⌊q⌋ else ⌈q⌉

/-- Scan of `choose_branching_variable`: walk the variables in declaration
order and return the first one whose value is strictly inside
`(tolerance, 1 - tolerance)`.  The Python loop appends the hit to a local
list and immediately returns its head; when the loop falls through, the list
is empty and the function returns `None`. -/
def chooseAux (tolerance : ℚ) : List Var → Option Var
  | [] => none
  | v :: vs =>
      if tolerance < v.x ∧ v.x < 1 - tolerance then some v else chooseAux tolerance vs

/-- Shallow embedding of `choose_branching_variable(model, tolerance)`. -/
def choose_branching_variable (model : Model) (tolerance : ℚ) : Option Var :=
  chooseAux tolerance model.vars

/-- Python dict assignment `d[k] = v` on an id-keyed table, preserving
insertion order: an existing key keeps its position with the new value, a new
key is appended. -/
def dictInsert (d : List (ℕ × ℚ)) (k : ℕ) (v : ℚ) : List (ℕ × ℚ) :=
  if d.any (fun p => p.1 == k) then
    d.map (fun p => if p.1 = k then (k, v) else p)
  else d ++ [(k, v)]

/-- The dict comprehension purging `active_nodes`: keep exactly the entries
whose key occurs as a stored (parent) id of some stack element. -/
def purgeNodes (d : List (ℕ × ℚ)) (stack : List (ℕ × Model)) : List (ℕ × ℚ) :=
  d.filter (fun p => stack.any (fun e => p.1 == e.1))

/-- Minimum of the values of a nonempty table (`min(d.values())`). -/
def valuesMin : List (ℕ × ℚ) → WithTop ℚ
  | [] => ⊤
  | p :: ps => min (p.2 : WithTop ℚ) (valuesMin ps)

/-- Python `min(d.values(), default=dflt)`: the default only applies to an
empty table. -/
def dictMin (d : List (ℕ × ℚ)) (dflt : WithTop ℚ) : WithTop ℚ :=
  match d with
  | [] => dflt
  | _ :: _ => valuesMin d

/-- The value of the returned `gap`.  `fin q` is an ordinary float, `pinf`
and `ninf` are the infinities, and `zeroDivErr` marks the `ZeroDivisionError`
Python raises when the denominator `abs(best_objective)` is zero (no value is
returned in that case). -/
inductive GapVal where
  | fin (q : ℚ)
  | pinf
  | ninf
  | zeroDivErr
  deriving DecidableEq, Repr

/-- The gap computation of lines 89-92: `inf` when no incumbent exists,
otherwise `0.0` when `best_objective == best_bound`, otherwise
`(best_objective - best_bound) / abs(best_objective) * 100` evaluated with
Python float semantics (`b - inf = -inf`; a zero denominator raises). -/
def computeGap (bo bb : WithTop ℚ) : GapVal :=
  bo.recTopCoe GapVal.pinf (fun b =>
    if (b : WithTop ℚ) = bb then GapVal.fin 0
    else
      bb.recTopCoe (if b = 0 then GapVal.zeroDivErr else GapVal.ninf)
        (fun c => if b = 0 then GapVal.zeroDivErr else GapVal.fin ((b - c) / |b| * 100)))

/-- The mutable state of the search loop.  `tick` counts the `time.time()`
calls made since the timer was started, so `clock tick` is the elapsed time
the next call will observe. -/
structure BBState where
  stack : List (ℕ × Model)
  bestSolution : Option Model
  bestObjective : WithTop ℚ
  bestBound : WithTop ℚ
  nodesExplored : ℕ
  activeNodes : List (ℕ × ℚ)
  activeIntNodes : List (ℕ × ℚ)
  nextId : ℕ
  tick : ℕ
  deriving DecidableEq, Repr

/-- The 5-tuple returned by `branch_and_bound`. -/
structure BBResult where
  bestBound : WithTop ℚ
  bestObjective : WithTop ℚ
  timeTaken : ℚ
  gap : GapVal
  nodesExplored : ℕ
  deriving DecidableEq, Repr

/-- One iteration of the `while` body (lines 35-81), to be run on a state
whose stack is nonempty and whose `tick` has already been advanced past the
loop-condition `time.time()` call: pop, count the node, set the remaining
time budget, solve, then discard / record an incumbent / branch, and finally
purge the frontier table against the new stack. -/
def bbIter (oracle : Model → OracleResult) (clock : ℕ → ℚ)
    (tolerance timeLimit : ℚ) (s : BBState) : BBState :=
  match s.stack with
  | [] => s
  | (_, current) :: rest =>
    let nodesExplored := s.nodesExplored + 1
    let tlParam := max (timeLimit - clock s.tick) 0
    let tick := s.tick + 1
    let solved := optimize oracle { current with timeLimitParam := tlParam }
    let currentId := current.mid
    if solved.status ≠ GRB_OPTIMAL then
      { s with stack := rest, nodesExplored := nodesExplored, tick := tick,
               activeNodes := purgeNodes s.activeNodes rest }
    else
      let objVal := solved.objVal
      if s.bestObjective ≤ (objVal : WithTop ℚ) then
        { s with stack := rest, nodesExplored := nodesExplored, tick := tick,
                 activeNodes := purgeNodes s.activeNodes rest }
      else
        let activeNodes1 := dictInsert s.activeNodes currentId objVal
        match choose_branching_variable solved tolerance with
        | none =>
            if (objVal : WithTop ℚ) < s.bestObjective then
              { s with stack := rest, nodesExplored := nodesExplored, tick := tick,
                       bestSolution := some (copyModel solved s.nextId),
                       bestObjective := (objVal : WithTop ℚ),
                       activeNodes := purgeNodes activeNodes1 rest,
                       activeIntNodes := dictInsert s.activeIntNodes currentId objVal,
                       nextId := s.nextId + 1 }
            else
              { s with stack := rest, nodesExplored := nodesExplored, tick := tick,
                       activeNodes := purgeNodes activeNodes1 rest }
        | some fv =>
            let modelRight := setVarLb (copyModel solved s.nextId) fv.name
              ((ratTrunc fv.x + 1 : ℤ) : ℚ)
            let modelLeft := setVarUb (copyModel solved (s.nextId + 1)) fv.name
              ((ratTrunc fv.x : ℤ) : ℚ)
            let stack2 := (currentId, modelLeft) :: (currentId, modelRight) :: rest
            { s with stack := stack2, nodesExplored := nodesExplored, tick := tick,
                     activeNodes := purgeNodes activeNodes1 stack2,
                     nextId := s.nextId + 2 }

/-- The `while stack and time.time() - start_time < time_limit` loop, with
`fuel` bounding the number of iterations (the Python loop need not terminate
for an arbitrary oracle); `none` means the fuel ran out.  The conjunction
short-circuits: an empty stack exits without reading the clock, otherwise one
`time.time()` call is consumed by the test. -/
def bbLoop (oracle : Model → OracleResult) (clock : ℕ → ℚ)
    (tolerance timeLimit : ℚ) : ℕ → BBState → Option BBState
  | 0, _ => none
  | fuel + 1, s =>
    match s.stack with
    | [] => some s
    | _ :: _ =>
      if clock s.tick < timeLimit then
        bbLoop oracle clock tolerance timeLimit fuel
          (bbIter oracle clock tolerance timeLimit { s with tick := s.tick + 1 })
      else some { s with tick := s.tick + 1 }

/-- Lines 83-93: take the final time reading, fold the two bound tables into
`best_bound` (with the never-reassigned initial `best_bound` as the default of
each inner `min`), and compute the gap. -/
def finalize (clock : ℕ → ℚ) (s : BBState) : BBResult :=
  let timeTaken := clock s.tick
  let bestBound := min (dictMin s.activeIntNodes s.bestBound) (dictMin s.activeNodes s.bestBound)
  { bestBound := bestBound, bestObjective := s.bestObjective, timeTaken := timeTaken,
    gap := computeGap s.bestObjective bestBound, nodesExplored := s.nodesExplored }

/-- The state at line 33: the root node carries its own id, the accumulators
are empty, `best_objective = best_bound = inf`, and fresh ids start above the
root's. -/
def initState (rootModel : Model) : BBState :=
  { stack := [(rootModel.mid, rootModel)], bestSolution := none,
    bestObjective := ⊤, bestBound := ⊤, nodesExplored := 0,
    activeNodes := [], activeIntNodes := [], nextId := rootModel.mid + 1, tick := 0 }

/-- Shallow embedding of `branch_and_bound(model, tolerance, time_limit)`:
run the loop from the initial state and assemble the returned 5-tuple;
`none` when the fuel does not cover the run. -/
def branch_and_bound (oracle : Model → OracleResult) (clock : ℕ → ℚ)
    (model : Model) (tolerance timeLimit : ℚ) (fuel : ℕ) : Option BBResult :=
  (bbLoop oracle clock tolerance timeLimit fuel (initState model)).map (finalize clock)

/-! ## Helper lemmas on the branching-rule scan -/

theorem chooseAux_eq_some (tol : ℚ) (l : List Var) (v : Var)
    (h : chooseAux tol l = some v) :
    ∃ l1 l2, l = l1 ++ v :: l2 ∧ (tol < v.x ∧ v.x < 1 - tol) ∧
      ∀ w ∈ l1, ¬(tol < w.x ∧ w.x < 1 - tol) := by
  induction l with
  | nil => simp [chooseAux] at h
  | cons u us ih =>
    by_cases hc : tol < u.x ∧ u.x < 1 - tol
    · simp only [chooseAux, if_pos hc, Option.some.injEq] at h
      exact ⟨[], us, by simp [h], h ▸ hc, by simp⟩
    · simp only [chooseAux, if_neg hc] at h
      obtain ⟨l1, l2, hl, hv, hall⟩ := ih h
      exact ⟨u :: l1, l2, by simp [hl], hv, by
        intro w hw
        rcases List.mem_cons.mp hw with hw | hw
        · exact hw ▸ hc
        · exact hall w hw⟩

theorem chooseAux_eq_none (tol : ℚ) (l : List Var) :
    chooseAux tol l = none ↔ ∀ w ∈ l, ¬(tol < w.x ∧ w.x < 1 - tol) := by
  induction l with
  | nil => simp [chooseAux]
  | cons u us ih =>
    by_cases hc : tol < u.x ∧ u.x < 1 - tol
    · constructor
      · intro h
        simp only [chooseAux, if_pos hc] at h
        exact absurd h (by simp)
      · intro h
        exact absurd hc (h u (List.mem_cons_self u us))
    · simp only [chooseAux, if_neg hc]
      constructor
      · intro h w hw
        rcases List.mem_cons.mp hw with hw | hw
        · exact hw ▸ hc
        · exact ih.mp h w hw
      · intro h
        exact ih.mpr (fun w hw => h w (List.mem_cons_of_mem u hw))

/-! ## Concrete instances used by the witnesses -/

/-- A clock that never advances: every `time.time()` call sees elapsed 0. -/
def clockZero : ℕ → ℚ := fun _ => 0

/-- A one-variable root model (id 0, variable `x` with bounds [0,1]). -/
def rootOneVar : Model := ⟨0, [⟨"x", 0, 1, 0⟩], 0, 0, 0⟩

/-- An oracle that always reports OPTIMAL with objective 7 and puts the value
`3/2` on the single variable. -/
def oracleX15 : Model → OracleResult := fun _ => ⟨2, 7, [3/2]⟩

/-- A model whose single variable already carries the solved value `3/2`. -/
def modelX15 : Model := ⟨0, [⟨"x", 0, 1, 3/2⟩], 2, 7, 0⟩

/-- A model whose two variables carry integral solved values 0 and 1. -/
def modelIntegral : Model := ⟨0, [⟨"x", 0, 1, 0⟩, ⟨"y", 0, 1, 1⟩], 2, 5, 0⟩

/-! ## C2 -/

/-- C2: `choose_branching_variable` scans the model's variables in declaration
order and returns the first one whose value lies strictly inside
`(tolerance, 1 - tolerance)`; it returns `none` exactly when no variable's
value lies in that open interval.  (The embedding is a pure function of the
model, mirroring that the source performs no mutation.) -/
theorem c2_choose_first_fractional_in_order (m : Model) (tol : ℚ) :
    (∀ v, choose_branching_variable m tol = some v →
      ∃ l1 l2, m.vars = l1 ++ v :: l2 ∧ (tol < v.x ∧ v.x < 1 - tol) ∧
        ∀ w ∈ l1, ¬(tol < w.x ∧ w.x < 1 - tol)) ∧
    (choose_branching_variable m tol = none ↔
      ∀ w ∈ m.vars, ¬(tol < w.x ∧ w.x < 1 - tol)) := by
  constructor
  · intro v h
    exact chooseAux_eq_some tol m.vars v h
  · exact chooseAux_eq_none tol m.vars

/-- Witness for C2 at a concrete model: both an integral model mapped to
`none` and a fractional model mapped to its first strictly-fractional
variable. -/
theorem c2_choose_first_fractional_in_order_witness :
    choose_branching_variable modelIntegral (1/1000000) = none :=
  (c2_choose_first_fractional_in_order modelIntegral (1/1000000)).2.mpr (by decide)

/-! ## C9 -/

/-- C9 (implicit): the integrality test of `choose_branching_variable` only
looks at the open interval `(tolerance, 1 - tolerance)`, so any model all of
whose variable values are `≤ tolerance` or `≥ 1 - tolerance` is treated as
integral (`none`), even when a value such as `3/2` is fractional or lies
outside `[0, 1]`; the second conjunct runs `branch_and_bound` against an
oracle answering `x = 3/2` and shows the node is accepted as an incumbent
with no further branching (one node explored, gap 0). -/
theorem c9_interval_only_integrality_test :
    (∀ (m : Model) (tol : ℚ), (∀ v ∈ m.vars, v.x ≤ tol ∨ 1 - tol ≤ v.x) →
      choose_branching_variable m tol = none) ∧
    branch_and_bound oracleX15 clockZero rootOneVar (1/1000000) 120 3 =
      some ⟨((7:ℚ) : WithTop ℚ), ((7:ℚ) : WithTop ℚ), 0, GapVal.fin 0, 1⟩ := by
  constructor
  · intro m tol h
    refine (chooseAux_eq_none tol m.vars).mpr ?_
    intro w hw hcontra
    rcases h w hw with h1 | h1
    · exact absurd hcontra.1 (not_lt.mpr h1)
    · exact absurd hcontra.2 (not_lt.mpr h1)
  · decide

/-- Witness for C9 at a concrete model: the variable value `3/2` is outside
`(tolerance, 1 - tolerance)`, so the model counts as integral. -/
theorem c9_interval_only_integrality_test_witness :
    choose_branching_variable modelX15 (1/1000000) = none :=
  c9_interval_only_integrality_test.1 modelX15 (1/1000000) (by decide)

/-! ## C1: pruning at `>=` discards without branching -/

/-- C1: when a popped node's relaxation solves to OPTIMAL with objective `≥`
the current `best_objective` (ties included), the iteration only removes the
node: the stack becomes the remaining tail (no children), the frontier table
is merely purged against that tail (the node's bound is not recorded), and
nothing else — incumbent, integral-leaf table, ids — changes, so the loop
just continues. -/
theorem c1_prune_at_ge_discards_node (oracle : Model → OracleResult) (clock : ℕ → ℚ)
    (tolerance timeLimit : ℚ) (s : BBState) (pid : ℕ) (m : Model) (rest : List (ℕ × Model))
    (hstack : s.stack = (pid, m) :: rest)
    (hopt : (optimize oracle
      { m with timeLimitParam := max (timeLimit - clock s.tick) 0 }).status = GRB_OPTIMAL)
    (hge : s.bestObjective ≤ ((optimize oracle
      { m with timeLimitParam := max (timeLimit - clock s.tick) 0 }).objVal : WithTop ℚ)) :
    bbIter oracle clock tolerance timeLimit s =
      { s with stack := rest, nodesExplored := s.nodesExplored + 1, tick := s.tick + 1,
               activeNodes := purgeNodes s.activeNodes rest } := by
  obtain ⟨stk, bs, bo, bb, ne, an, ain, ni, tk⟩ := s
  simp only at hstack
  subst hstack
  simp only [bbIter]
  rw [if_neg (by simp [hopt]), if_pos hge]

/-- The state of a search that already holds an incumbent of value 3 and is
about to pop the root node. -/
def stateInc3 : BBState :=
  { stack := [(0, rootOneVar)], bestSolution := none,
    bestObjective := ((3:ℚ) : WithTop ℚ), bestBound := ⊤, nodesExplored := 0,
    activeNodes := [], activeIntNodes := [], nextId := 1, tick := 0 }

/-- Witness for C1: with an incumbent of 3, a node relaxing to 7 is popped
and discarded without children. -/
theorem c1_prune_at_ge_discards_node_witness :
    bbIter oracleX15 clockZero (1/1000000) 120 stateInc3 =
      { stateInc3 with stack := [], nodesExplored := 1, tick := 1 } := by
  rw [c1_prune_at_ge_discards_node oracleX15 clockZero (1/1000000) 120 stateInc3 0 rootOneVar
    [] rfl (by decide) (by decide)]
  decide

/-! ## C6: non-OPTIMAL oracle status discards the node locally -/

/-- C6: when the oracle reports a status other than OPTIMAL for the popped
node (infeasible or time-limit-hit), the iteration discards the node locally:
no children are created, no incumbent or bound is recorded, the frontier
table is purged against the remaining stack, and the (total) step function
simply yields the next state — no error reaches the caller. -/
theorem c6_non_optimal_status_discarded_locally (oracle : Model → OracleResult)
    (clock : ℕ → ℚ) (tolerance timeLimit : ℚ) (s : BBState)
    (pid : ℕ) (m : Model) (rest : List (ℕ × Model))
    (hstack : s.stack = (pid, m) :: rest)
    (hbad : (optimize oracle
      { m with timeLimitParam := max (timeLimit - clock s.tick) 0 }).status ≠ GRB_OPTIMAL) :
    bbIter oracle clock tolerance timeLimit s =
      { s with stack := rest, nodesExplored := s.nodesExplored + 1, tick := s.tick + 1,
               activeNodes := purgeNodes s.activeNodes rest } := by
  obtain ⟨stk, bs, bo, bb, ne, an, ain, ni, tk⟩ := s
  simp only at hstack
  subst hstack
  simp only [bbIter]
  rw [if_pos hbad]

/-- An oracle that always reports the gurobi INFEASIBLE status (3). -/
def oracleInfeasible : Model → OracleResult := fun _ => ⟨3, 0, []⟩

/-- Witness for C6: an infeasible root is silently dropped and the search
state moves on with an empty stack. -/
theorem c6_non_optimal_status_discarded_locally_witness :
    bbIter oracleInfeasible clockZero (1/1000000) 120 (initState rootOneVar) =
      { initState rootOneVar with stack := [], nodesExplored := 1, tick := 1 } := by
  rw [c6_non_optimal_status_discarded_locally oracleInfeasible clockZero (1/1000000) 120
    (initState rootOneVar) 0 rootOneVar [] rfl (by decide)]
  decide

/-! ## C3: branching builds exactly two one-bound-tightened children -/

/-- C3: when the popped node solves to OPTIMAL, beats the incumbent, and the
branching rule picks a fractional variable, the iteration produces exactly
two children, each a copy of the solved node model with one bound of that
single variable changed: the right child's lower bound becomes
`ratTrunc x* + 1` and the left child's upper bound becomes `ratTrunc x*`
(`int()` truncation of the relaxation value); the right child is pushed first
and the left child sits on top of the LIFO stack, so it is popped next. -/
theorem c3_two_children_one_bound_each (oracle : Model → OracleResult) (clock : ℕ → ℚ)
    (tolerance timeLimit : ℚ) (s : BBState) (pid : ℕ) (m solved : Model)
    (rest : List (ℕ × Model)) (fv : Var)
    (hstack : s.stack = (pid, m) :: rest)
    (hsolved : solved = optimize oracle
      { m with timeLimitParam := max (timeLimit - clock s.tick) 0 })
    (hopt : solved.status = GRB_OPTIMAL)
    (hlt : (solved.objVal : WithTop ℚ) < s.bestObjective)
    (hfv : choose_branching_variable solved tolerance = some fv) :
    bbIter oracle clock tolerance timeLimit s =
      { s with
        stack := (m.mid, setVarUb (copyModel solved (s.nextId + 1)) fv.name
                    ((ratTrunc fv.x : ℤ) : ℚ)) ::
                 (m.mid, setVarLb (copyModel solved s.nextId) fv.name
                    ((ratTrunc fv.x + 1 : ℤ) : ℚ)) :: rest,
        nodesExplored := s.nodesExplored + 1, tick := s.tick + 1,
        activeNodes := purgeNodes (dictInsert s.activeNodes m.mid solved.objVal)
          ((m.mid, setVarUb (copyModel solved (s.nextId + 1)) fv.name
              ((ratTrunc fv.x : ℤ) : ℚ)) ::
           (m.mid, setVarLb (copyModel solved s.nextId) fv.name
              ((ratTrunc fv.x + 1 : ℤ) : ℚ)) :: rest),
        nextId := s.nextId + 2 } := by
  obtain ⟨stk, bs, bo, bb, ne, an, ain, ni, tk⟩ := s
  simp only at hstack
  subst hstack
  simp only [bbIter, ← hsolved]
  rw [if_neg (by simp [hopt]), if_neg (not_le.mpr hlt), hfv]

/-- An oracle that always reports OPTIMAL with objective 5 and relaxation
value `1/2` on the single variable. -/
def oracleHalf : Model → OracleResult := fun _ => ⟨2, 5, [1/2]⟩

/-- The root model of `rootOneVar` as solved by `oracleHalf` under a full
remaining time budget. -/
def solvedHalf : Model :=
  optimize oracleHalf { rootOneVar with timeLimitParam := max (120 - clockZero 0) 0 }

/-- Witness for C3: branching the root on `x = 1/2` pushes the `lb := 1`
right child first, then the `ub := 0` left child on top. -/
theorem c3_two_children_one_bound_each_witness :
    bbIter oracleHalf clockZero (1/1000000) 120 (initState rootOneVar) =
      { initState rootOneVar with
        stack := [(0, setVarUb (copyModel solvedHalf 2) "x" ((ratTrunc (1/2) : ℤ) : ℚ)),
                  (0, setVarLb (copyModel solvedHalf 1) "x" ((ratTrunc (1/2) + 1 : ℤ) : ℚ))],
        nodesExplored := 1, tick := 1,
        activeNodes := [(0, 5)], nextId := 3 } := by
  rw [c3_two_children_one_bound_each oracleHalf clockZero (1/1000000) 120
    (initState rootOneVar) 0 rootOneVar solvedHalf [] ⟨"x", 0, 1, 1/2⟩ rfl rfl
    (by decide) (by decide) (by decide)]
  decide

/-! ## Table lemmas -/

theorem mem_dictInsert (d : List (ℕ × ℚ)) (k : ℕ) (v : ℚ) (p : ℕ × ℚ)
    (hp : p ∈ dictInsert d k v) : p ∈ d ∨ p = (k, v) := by
  unfold dictInsert at hp
  split at hp
  · rcases List.mem_map.mp hp with ⟨q, hq, hqe⟩
    by_cases hk : q.1 = k
    · right
      rw [if_pos hk] at hqe
      exact hqe.symm
    · left
      rw [if_neg hk] at hqe
      exact hqe ▸ hq
  · rcases List.mem_append.mp hp with h | h
    · exact Or.inl h
    · exact Or.inr (List.mem_singleton.mp h)

theorem dictInsert_of_fresh (d : List (ℕ × ℚ)) (k : ℕ) (v : ℚ)
    (h : ∀ p ∈ d, p.1 ≠ k) : dictInsert d k v = d ++ [(k, v)] := by
  unfold dictInsert
  rw [if_neg]
  simp only [List.any_eq_true, beq_iff_eq, not_exists, not_and]
  intro p hp
  exact h p hp

theorem mem_of_mem_purgeNodes (d : List (ℕ × ℚ)) (stk : List (ℕ × Model)) (p : ℕ × ℚ)
    (hp : p ∈ purgeNodes d stk) : p ∈ d :=
  (List.mem_filter.mp hp).1

theorem valuesMin_le (d : List (ℕ × ℚ)) (p : ℕ × ℚ) (hp : p ∈ d) :
    valuesMin d ≤ (p.2 : WithTop ℚ) := by
  induction d with
  | nil => cases hp
  | cons q qs ih =>
    rcases List.mem_cons.mp hp with h | h
    · exact h ▸ min_le_left _ _
    · exact le_trans (min_le_right _ _) (ih h)

theorem valuesMin_attained (d : List (ℕ × ℚ)) (hd : d ≠ []) :
    ∃ p ∈ d, valuesMin d = (p.2 : WithTop ℚ) := by
  induction d with
  | nil => exact absurd rfl hd
  | cons q qs ih =>
    cases qs with
    | nil => exact ⟨q, List.mem_cons_self q [], by simp [valuesMin]⟩
    | cons r rs =>
      obtain ⟨p, hp, hval⟩ := ih (by simp)
      rcases min_cases ((q.2 : WithTop ℚ)) (valuesMin (r :: rs)) with ⟨hmin, _⟩ | ⟨hmin, _⟩
      · exact ⟨q, List.mem_cons_self q _, hmin⟩
      · exact ⟨p, List.mem_cons_of_mem q hp, by rw [valuesMin, hmin, hval]⟩

theorem valuesMin_eq_of_bounds (d : List (ℕ × ℚ)) (b : ℚ)
    (h1 : ∀ p ∈ d, (b : WithTop ℚ) ≤ (p.2 : WithTop ℚ))
    (h2 : ∃ p ∈ d, (p.2 : WithTop ℚ) = (b : WithTop ℚ)) :
    valuesMin d = (b : WithTop ℚ) := by
  obtain ⟨p, hp, hval⟩ := h2
  refine le_antisymm (hval ▸ valuesMin_le d p hp) ?_
  obtain ⟨q, hq, hqval⟩ := valuesMin_attained d (by rintro rfl; cases hp)
  rw [hqval]
  exact h1 q hq

/-! ## The search invariants -/

/-- Invariant tying the incumbent to the integral-leaf table: every recorded
integral-leaf bound is at least `best_objective`, the value `best_objective`
is itself recorded whenever an incumbent exists, and the local `best_bound`
variable still holds its initial `inf` during the loop. -/
def IncInv (s : BBState) : Prop :=
  (∀ p ∈ s.activeIntNodes, s.bestObjective ≤ (p.2 : WithTop ℚ)) ∧
  (s.bestObjective ≠ ⊤ → ∃ p ∈ s.activeIntNodes, (p.2 : WithTop ℚ) = s.bestObjective) ∧
  s.bestBound = ⊤

/-- Freshness of model identities: every key of the integral-leaf table and
every model on the stack sits below the id counter, stack model ids avoid the
table's keys, and stack model ids are pairwise distinct. -/
def FreshInv (s : BBState) : Prop :=
  (∀ p ∈ s.activeIntNodes, p.1 < s.nextId) ∧
  (∀ e ∈ s.stack, e.2.mid < s.nextId) ∧
  (∀ e ∈ s.stack, ∀ p ∈ s.activeIntNodes, e.2.mid ≠ p.1) ∧
  (s.stack.map (fun e => e.2.mid)).Nodup

theorem incInv_init (root : Model) : IncInv (initState root) := by
  refine ⟨?_, ?_, rfl⟩ <;> simp [initState]

theorem freshInv_init (root : Model) : FreshInv (initState root) := by
  refine ⟨?_, ?_, ?_, ?_⟩ <;> simp [initState]

theorem incInv_of_same_fields (s t : BBState) (hinc : IncInv s)
    (hain : t.activeIntNodes = s.activeIntNodes)
    (hbo : t.bestObjective = s.bestObjective) (hbb : t.bestBound = s.bestBound) :
    IncInv t := by
  obtain ⟨h1, h2, h3⟩ := hinc
  exact ⟨by rw [hain, hbo]; exact h1, by rw [hain, hbo]; exact h2, by rw [hbb, h3]⟩

theorem incInv_of_new_incumbent (s t : BBState) (k : ℕ) (v : ℚ) (hinc : IncInv s)
    (hv : (v : WithTop ℚ) < s.bestObjective)
    (hain : t.activeIntNodes = s.activeIntNodes ++ [(k, v)])
    (hbo : t.bestObjective = (v : WithTop ℚ)) (hbb : t.bestBound = s.bestBound) :
    IncInv t := by
  obtain ⟨h1, h2, h3⟩ := hinc
  refine ⟨?_, ?_, by rw [hbb, h3]⟩
  · intro p hp
    rw [hain] at hp
    rw [hbo]
    rcases List.mem_append.mp hp with h | h
    · exact le_trans (le_of_lt hv) (h1 p h)
    · rw [List.mem_singleton.mp h]
  · intro _
    exact ⟨(k, v), by rw [hain]; exact List.mem_append_right _ (List.mem_singleton.mpr rfl),
      by rw [hbo]⟩

theorem freshInv_of_discard (s t : BBState) (pid : ℕ) (m : Model)
    (rest : List (ℕ × Model)) (hfresh : FreshInv s)
    (hstk : s.stack = (pid, m) :: rest) (htstk : t.stack = rest)
    (hain : t.activeIntNodes = s.activeIntNodes) (hni : t.nextId = s.nextId) :
    FreshInv t := by
  obtain ⟨h1, h2, h3, h4⟩ := hfresh
  rw [hstk] at h2 h3 h4
  refine ⟨?_, ?_, ?_, ?_⟩
  · intro p hp
    rw [hni]
    exact h1 p (hain ▸ hp)
  · intro e he
    rw [hni]
    exact h2 e (by rw [htstk] at he; exact List.mem_cons_of_mem _ he)
  · intro e he p hp
    exact h3 e (by rw [htstk] at he; exact List.mem_cons_of_mem _ he) p (hain ▸ hp)
  · rw [htstk]
    exact (List.nodup_cons.mp (by simpa using h4)).2

theorem freshInv_of_incumbent (s t : BBState) (pid : ℕ) (m : Model)
    (rest : List (ℕ × Model)) (v : ℚ) (hfresh : FreshInv s)
    (hstk : s.stack = (pid, m) :: rest) (htstk : t.stack = rest)
    (hain : t.activeIntNodes = s.activeIntNodes ++ [(m.mid, v)])
    (hni : t.nextId = s.nextId + 1) : FreshInv t := by
  obtain ⟨h1, h2, h3, h4⟩ := hfresh
  rw [hstk] at h2 h3 h4
  simp only [List.map_cons, List.nodup_cons, List.mem_map] at h4
  refine ⟨?_, ?_, ?_, ?_⟩
  · intro p hp
    rw [hni]
    rcases List.mem_append.mp (hain ▸ hp) with h | h
    · exact Nat.lt_succ_of_lt (h1 p h)
    · rw [List.mem_singleton.mp h]
      exact Nat.lt_succ_of_lt (h2 (pid, m) (List.mem_cons_self _ _))
  · intro e he
    rw [hni]
    exact Nat.lt_succ_of_lt (h2 e (List.mem_cons_of_mem _ (htstk ▸ he)))
  · intro e he p hp
    rcases List.mem_append.mp (hain ▸ hp) with h | h
    · exact h3 e (List.mem_cons_of_mem _ (htstk ▸ he)) p h
    · rw [List.mem_singleton.mp h]
      intro hcontra
      exact h4.1 ⟨e, htstk ▸ he, hcontra⟩
  · rw [htstk]
    exact h4.2

theorem freshInv_of_branch (s t : BBState) (pid a b : ℕ) (m ml mr : Model)
    (rest : List (ℕ × Model)) (hfresh : FreshInv s)
    (hstk : s.stack = (pid, m) :: rest)
    (htstk : t.stack = (a, ml) :: (b, mr) :: rest)
    (hml : ml.mid = s.nextId + 1) (hmr : mr.mid = s.nextId)
    (hain : t.activeIntNodes = s.activeIntNodes) (hni : t.nextId = s.nextId + 2) :
    FreshInv t := by
  obtain ⟨h1, h2, h3, h4⟩ := hfresh
  rw [hstk] at h2 h3 h4
  simp only [List.map_cons, List.nodup_cons, List.mem_map] at h4
  have hrest : ∀ e ∈ rest, e.2.mid < s.nextId :=
    fun e he => h2 e (List.mem_cons_of_mem _ he)
  refine ⟨?_, ?_, ?_, ?_⟩
  · intro p hp
    rw [hni]
    exact lt_of_lt_of_le (h1 p (hain ▸ hp)) (by omega)
  · intro e he
    rw [hni]
    rcases List.mem_cons.mp (htstk ▸ he) with h | h
    · rw [h]
      simp only [hml]
      omega
    · rcases List.mem_cons.mp h with h | h
      · rw [h]
        simp only [hmr]
        omega
      · exact lt_of_lt_of_le (hrest e h) (by omega)
  · intro e he p hp
    rcases List.mem_cons.mp (htstk ▸ he) with h | h
    · rw [h]
      simp only [hml]
      intro hcontra
      exact absurd (hcontra ▸ h1 p (hain ▸ hp)) (by omega)
    · rcases List.mem_cons.mp h with h | h
      · rw [h]
        simp only [hmr]
        intro hcontra
        exact absurd (hcontra ▸ h1 p (hain ▸ hp)) (by omega)
      · exact h3 e (List.mem_cons_of_mem _ h) p (hain ▸ hp)
  · rw [htstk]
    simp only [List.map_cons, List.nodup_cons, List.mem_cons, List.mem_map, hml, hmr]
    refine ⟨?_, ?_, h4.2⟩
    · rintro (h | ⟨e, he, hmid⟩)
      · omega
      · exact absurd (hmid ▸ hrest e he) (by omega)
    · rintro ⟨e, he, hmid⟩
      exact absurd (hmid ▸ hrest e he) (by omega)

theorem bbIter_main (o : Model → OracleResult) (c : ℕ → ℚ) (tol tl : ℚ) (s : BBState)
    (hinc : IncInv s) (hfresh : FreshInv s) :
    (IncInv (bbIter o c tol tl s) ∧ FreshInv (bbIter o c tol tl s)) ∧
    (∀ p ∈ s.activeIntNodes, p ∈ (bbIter o c tol tl s).activeIntNodes) ∧
    (∀ p ∈ (bbIter o c tol tl s).activeIntNodes, p ∉ s.activeIntNodes →
      ∀ q ∈ s.activeIntNodes, (p.2 : ℚ) < q.2) := by
  rcases hstk : s.stack with _ | ⟨⟨pid, m⟩, rest⟩
  · simp only [bbIter, hstk]
    exact ⟨⟨hinc, hfresh⟩, fun p hp => hp, fun p hp hnp _ _ => absurd hp hnp⟩
  · simp only [bbIter, hstk]
    split
    · refine ⟨⟨incInv_of_same_fields s _ hinc rfl rfl rfl,
        freshInv_of_discard s _ pid m rest hfresh hstk rfl rfl rfl⟩,
        fun p hp => hp, fun p hp hnp => absurd hp hnp⟩
    · split
      · refine ⟨⟨incInv_of_same_fields s _ hinc rfl rfl rfl,
          freshInv_of_discard s _ pid m rest hfresh hstk rfl rfl rfl⟩,
          fun p hp => hp, fun p hp hnp => absurd hp hnp⟩
      · split
        · rename_i hnotle heq
          split
          · rename_i hlt
            have hmnotkey : ∀ p ∈ s.activeIntNodes, p.1 ≠ m.mid :=
              fun p hp => Ne.symm (hfresh.2.2.1 (pid, m) (hstk ▸ List.mem_cons_self _ _) p hp)
            have hins := dictInsert_of_fresh s.activeIntNodes m.mid
              (optimize o { m with timeLimitParam := max (tl - c s.tick) 0 }).objVal hmnotkey
            refine ⟨⟨incInv_of_new_incumbent s _ m.mid _ hinc hlt (by exact hins) rfl rfl,
              freshInv_of_incumbent s _ pid m rest _ hfresh hstk rfl (by exact hins) rfl⟩,
              ?_, ?_⟩
            · intro p hp
              show p ∈ dictInsert _ _ _
              rw [hins]
              exact List.mem_append_left _ hp
            · intro p hp hnp q hq
              have hp2 : p ∈ dictInsert s.activeIntNodes m.mid
                  (optimize o { m with timeLimitParam := max (tl - c s.tick) 0 }).objVal := hp
              rw [hins] at hp2
              rcases List.mem_append.mp hp2 with h | h
              · exact absurd h hnp
              · rw [List.mem_singleton.mp h]
                have hqbo := hinc.1 q hq
                have := lt_of_lt_of_le hlt hqbo
                exact_mod_cast this
          · refine ⟨⟨incInv_of_same_fields s _ hinc rfl rfl rfl,
              freshInv_of_discard s _ pid m rest hfresh hstk rfl rfl rfl⟩,
              fun p hp => hp, fun p hp hnp => absurd hp hnp⟩
        · refine ⟨⟨incInv_of_same_fields s _ hinc rfl rfl rfl,
            freshInv_of_branch s _ pid m.mid m.mid m _ _ rest hfresh hstk rfl rfl rfl rfl rfl⟩,
            fun p hp => hp, fun p hp hnp => absurd hp hnp⟩

theorem inv_loop (o : Model → OracleResult) (c : ℕ → ℚ) (tol tl : ℚ) :
    ∀ (fuel : ℕ) (s sf : BBState), IncInv s → FreshInv s →
      bbLoop o c tol tl fuel s = some sf → IncInv sf ∧ FreshInv sf := by
  intro fuel
  induction fuel with
  | zero =>
    intro s sf _ _ h
    simp [bbLoop] at h
  | succ n ih =>
    intro s sf hinc hfresh h
    obtain ⟨stk, bs, bo, bb, ne, an, ain, ni, tk⟩ := s
    rcases stk with _ | ⟨e, rest⟩
    · simp only [bbLoop] at h
      cases h
      exact ⟨hinc, hfresh⟩
    · simp only [bbLoop] at h
      split at h
      · have hmain := bbIter_main o c tol tl
          ⟨e :: rest, bs, bo, bb, ne, an, ain, ni, tk + 1⟩ hinc hfresh
        exact ih _ sf hmain.1.1 hmain.1.2 h
      · cases h
        exact ⟨hinc, hfresh⟩

theorem inv_of_run (o : Model → OracleResult) (c : ℕ → ℚ) (root : Model) (tol tl : ℚ)
    (fuel : ℕ) (sf : BBState) (h : bbLoop o c tol tl fuel (initState root) = some sf) :
    IncInv sf ∧ FreshInv sf :=
  inv_loop o c tol tl fuel _ sf (incInv_init root) (freshInv_init root) h

theorem dictMin_le (d : List (ℕ × ℚ)) (dflt : WithTop ℚ) (p : ℕ × ℚ) (hp : p ∈ d) :
    dictMin d dflt ≤ (p.2 : WithTop ℚ) := by
  cases d with
  | nil => cases hp
  | cons q qs => exact valuesMin_le _ p hp

theorem finalize_bound_le_incumbent (c : ℕ → ℚ) (sf : BBState) (hinc : IncInv sf)
    (hbo : sf.bestObjective ≠ ⊤) :
    (finalize c sf).bestBound ≤ sf.bestObjective := by
  obtain ⟨p, hp, hval⟩ := hinc.2.1 hbo
  calc (finalize c sf).bestBound
      ≤ dictMin sf.activeIntNodes sf.bestBound := min_le_left _ _
    _ ≤ (p.2 : WithTop ℚ) := dictMin_le _ _ p hp
    _ = sf.bestObjective := hval

theorem computeGap_top_left (bb : WithTop ℚ) : computeGap ⊤ bb = GapVal.pinf := rfl

theorem computeGap_coe_coe (b c' : ℚ) :
    computeGap (b : WithTop ℚ) (c' : WithTop ℚ) =
      if (b : WithTop ℚ) = (c' : WithTop ℚ) then GapVal.fin 0
      else if b = 0 then GapVal.zeroDivErr else GapVal.fin ((b - c') / |b| * 100) := by
  simp only [computeGap, WithTop.recTopCoe_coe]

/-! ## C7 -/

/-- C7: whenever a run of `branch_and_bound` returns with an incumbent
(`best_objective` finite), the returned `best_bound` is at most
`best_objective`; and the returned gap is never negative: every finite gap
value is `≥ 0` and the gap is never `-inf` (the only non-value outcome is the
`ZeroDivisionError` raise when `best_objective = 0`, in which case nothing is
returned at all). -/
theorem c7_bound_le_incumbent_and_gap_nonneg (o : Model → OracleResult) (c : ℕ → ℚ)
    (root : Model) (tol tl : ℚ) (fuel : ℕ) (r : BBResult)
    (h : branch_and_bound o c root tol tl fuel = some r) :
    (r.bestObjective ≠ ⊤ → r.bestBound ≤ r.bestObjective) ∧
    (∀ q, r.gap = GapVal.fin q → 0 ≤ q) ∧ r.gap ≠ GapVal.ninf := by
  unfold branch_and_bound at h
  obtain ⟨sf, hsf, hr⟩ := Option.map_eq_some'.mp h
  obtain ⟨hinc, _⟩ := inv_of_run o c root tol tl fuel sf hsf
  subst hr
  rcases eq_or_ne sf.bestObjective ⊤ with hbo | hbo
  · have hgap : (finalize c sf).gap = GapVal.pinf := by
      show computeGap sf.bestObjective _ = _
      rw [hbo, computeGap_top_left]
    refine ⟨fun hne => absurd hbo hne, ?_, ?_⟩
    · intro q hq
      rw [hgap] at hq
      cases hq
    · rw [hgap]
      simp
  · obtain ⟨b, hb⟩ := WithTop.ne_top_iff_exists.mp hbo
    have hle : (finalize c sf).bestBound ≤ sf.bestObjective :=
      finalize_bound_le_incumbent c sf hinc hbo
    have hbbne : (finalize c sf).bestBound ≠ ⊤ := by
      intro htop
      rw [htop, ← hb] at hle
      exact absurd (top_le_iff.mp hle) (by simp)
    obtain ⟨cq, hc⟩ := WithTop.ne_top_iff_exists.mp hbbne
    have hcb : cq ≤ b := by
      rw [← hb, ← hc] at hle
      exact_mod_cast hle
    have hgapeq : (finalize c sf).gap =
        computeGap sf.bestObjective ((finalize c sf).bestBound) := rfl
    rw [← hb, ← hc, computeGap_coe_coe] at hgapeq
    refine ⟨fun _ => hle, ?_, ?_⟩
    · intro q hq
      rw [hgapeq] at hq
      split at hq
      · cases hq
        norm_num
      · split at hq
        · cases hq
        · cases hq
          have h1 : (0:ℚ) ≤ (b - cq) / |b| :=
            div_nonneg (sub_nonneg.mpr hcb) (abs_nonneg b)
          have h100 : (0:ℚ) ≤ 100 := by norm_num
          exact mul_nonneg h1 h100
    · rw [hgapeq]
      split
      · simp
      · split <;> simp

/-- An oracle describing a tiny tree: the root relaxes to objective 3 with
`x = 1/2`; the left child (`ub = 0`) relaxes to the integral solution 5; the
right child (`lb = 1`) would relax to 4 but is never reached in the timed-out
witness run. -/
def oracleTwoLevel : Model → OracleResult := fun m =>
  match m.vars with
  | v :: _ => if v.ub = 0 then ⟨2, 5, [0]⟩ else if v.lb = 1 then ⟨2, 4, [1]⟩ else ⟨2, 3, [1/2]⟩
  | [] => ⟨3, 0, []⟩

/-- A clock advancing one second per `time.time()` call. -/
def clockLin : ℕ → ℚ := fun n => n

/-- Witness for C7 on a run that times out (limit 3) after branching the root
and taking the left child as incumbent 5, leaving the right child's frontier
bound 3 pending: the returned bound 3 is below the incumbent 5 and the
returned 40 percent gap is nonnegative. -/
theorem c7_bound_le_incumbent_and_gap_nonneg_witness :
    ((3:ℚ) : WithTop ℚ) ≤ ((5:ℚ) : WithTop ℚ) ∧ (0:ℚ) ≤ 40 :=
  ⟨(c7_bound_le_incumbent_and_gap_nonneg oracleTwoLevel clockLin rootOneVar (1/1000000) 3 4
      ⟨((3:ℚ) : WithTop ℚ), ((5:ℚ) : WithTop ℚ), 5, GapVal.fin 40, 2⟩ (by decide)).1 (by decide),
   (c7_bound_le_incumbent_and_gap_nonneg oracleTwoLevel clockLin rootOneVar (1/1000000) 3 4
      ⟨((3:ℚ) : WithTop ℚ), ((5:ℚ) : WithTop ℚ), 5, GapVal.fin 40, 2⟩ (by decide)).2.1 40 rfl⟩

theorem dictMin_nil (dflt : WithTop ℚ) : dictMin [] dflt = dflt := rfl

theorem dictMin_of_ne_nil (d : List (ℕ × ℚ)) (dflt : WithTop ℚ) (hd : d ≠ []) :
    dictMin d dflt = valuesMin d := by
  cases d with
  | nil => exact absurd rfl hd
  | cons q qs => rfl

/-! ## C4 -/

/-- C4: at loop exit, the returned `best_bound` is the minimum over all
recorded integral-leaf bounds together with all frontier-table bounds still
present (it is a lower bound of every table entry and is attained by one of
them whenever any entry exists); when both tables are empty it degenerates to
`best_objective` (both are then the untouched initial `inf`). -/
theorem c4_best_bound_is_table_min (o : Model → OracleResult) (c : ℕ → ℚ)
    (root : Model) (tol tl : ℚ) (fuel : ℕ) (sf : BBState)
    (h : bbLoop o c tol tl fuel (initState root) = some sf) :
    (∀ p ∈ sf.activeIntNodes ++ sf.activeNodes,
        (finalize c sf).bestBound ≤ (p.2 : WithTop ℚ)) ∧
    (sf.activeIntNodes ++ sf.activeNodes ≠ [] →
        ∃ p ∈ sf.activeIntNodes ++ sf.activeNodes,
          (finalize c sf).bestBound = (p.2 : WithTop ℚ)) ∧
    (sf.activeIntNodes = [] → sf.activeNodes = [] →
        (finalize c sf).bestBound = (finalize c sf).bestObjective) := by
  obtain ⟨hinc, _⟩ := inv_of_run o c root tol tl fuel sf h
  have hbbtop : sf.bestBound = ⊤ := hinc.2.2
  refine ⟨?_, ?_, ?_⟩
  · intro p hp
    rcases List.mem_append.mp hp with hm | hm
    · exact le_trans (min_le_left _ _) (dictMin_le _ _ p hm)
    · exact le_trans (min_le_right _ _) (dictMin_le _ _ p hm)
  · intro hne
    show ∃ p ∈ _, min (dictMin sf.activeIntNodes sf.bestBound)
      (dictMin sf.activeNodes sf.bestBound) = _
    rcases hian : sf.activeIntNodes with _ | ⟨a1, ar⟩
    all_goals rcases han : sf.activeNodes with _ | ⟨b1, br⟩
    · rw [hian, han] at hne
      exact absurd rfl hne
    · obtain ⟨p, hp, hval⟩ := valuesMin_attained (b1 :: br) (by simp)
      refine ⟨p, List.mem_append_right _ hp, ?_⟩
      rw [dictMin_nil, dictMin_of_ne_nil _ _ (by simp), hbbtop, min_eq_right le_top, hval]
    · obtain ⟨p, hp, hval⟩ := valuesMin_attained (a1 :: ar) (by simp)
      refine ⟨p, List.mem_append_left _ hp, ?_⟩
      rw [dictMin_of_ne_nil _ _ (by simp), dictMin_nil, hbbtop, min_eq_left le_top, hval]
    · rcases le_total (valuesMin (a1 :: ar)) (valuesMin (b1 :: br)) with hmin | hmin
      · obtain ⟨p, hp, hval⟩ := valuesMin_attained (a1 :: ar) (by simp)
        refine ⟨p, List.mem_append_left _ hp, ?_⟩
        rw [dictMin_of_ne_nil _ _ (by simp), dictMin_of_ne_nil _ _ (by simp),
          min_eq_left hmin, hval]
      · obtain ⟨p, hp, hval⟩ := valuesMin_attained (b1 :: br) (by simp)
        refine ⟨p, List.mem_append_right _ hp, ?_⟩
        rw [dictMin_of_ne_nil _ _ (by simp), dictMin_of_ne_nil _ _ (by simp),
          min_eq_right hmin, hval]
  · intro hain han
    have hbo : sf.bestObjective = ⊤ := by
      by_contra hbo
      obtain ⟨p, hp, _⟩ := hinc.2.1 hbo
      rw [hain] at hp
      cases hp
    show min (dictMin sf.activeIntNodes sf.bestBound)
      (dictMin sf.activeNodes sf.bestBound) = sf.bestObjective
    rw [hain, han, dictMin_nil, hbbtop, min_self, hbo]

/-- The final state of the one-node run against `oracleX15`: the root is
accepted as an incumbent of value 7 with its value 3/2 counted as integral. -/
def sfX15 : BBState :=
  ⟨[], some (copyModel (optimize oracleX15
      { rootOneVar with timeLimitParam := max (120 - clockZero 1) 0 }) 1),
    ((7:ℚ) : WithTop ℚ), ⊤, 1, [], [(0, 7)], 2, 2⟩

/-- Witness for C4: on the concrete `oracleX15` run the returned bound is at
most the single recorded integral-leaf bound 7. -/
theorem c4_best_bound_is_table_min_witness :
    (finalize clockZero sfX15).bestBound ≤ ((7:ℚ) : WithTop ℚ) :=
  (c4_best_bound_is_table_min oracleX15 clockZero rootOneVar (1/1000000) 120 3 sfX15
    (by decide)).1 (0, 7) (by decide)

/-! ## C5 -/

/-- The gap computation in the order claim C5 states it: first `0` whenever
`best_objective == best_bound`, then `+inf` when no incumbent was found, else
the percentage formula.  (This definition follows the claim's wording, not
the source, so that the two can be compared.) -/
def specGapOrder (bo bb : WithTop ℚ) : GapVal :=
  if bo = bb then GapVal.fin 0
  else
    bo.recTopCoe GapVal.pinf (fun b =>
      bb.recTopCoe (if b = 0 then GapVal.zeroDivErr else GapVal.ninf)
        (fun c => if b = 0 then GapVal.zeroDivErr else GapVal.fin ((b - c) / |b| * 100)))

/-- Counterexample to C5: on a run whose root is infeasible, the code returns
`best_objective = best_bound = inf` with gap `inf`, whereas the claim's case
order (equality tested first) would give gap `0`; so the three cases in the
claim's order do not describe the code. -/
theorem c5_gap_case_order_counterexample :
    branch_and_bound oracleInfeasible clockZero rootOneVar (1/1000000) 120 2 =
      some ⟨⊤, ⊤, 0, GapVal.pinf, 1⟩ ∧
    specGapOrder (⊤ : WithTop ℚ) (⊤ : WithTop ℚ) = GapVal.fin 0 ∧
    GapVal.pinf ≠ GapVal.fin 0 := by
  refine ⟨by decide, ?_, by decide⟩
  rw [specGapOrder, if_pos rfl]

/-- C5 (amended): the no-incumbent test comes first.  On every completed run
the returned gap is `+inf` whenever `best_objective` is still `inf` (even
when it equals `best_bound`); otherwise `0` when `best_objective` equals
`best_bound`; otherwise `100 * (best_objective - best_bound) /
|best_objective|` whenever that denominator is nonzero (a zero denominator
raises `ZeroDivisionError` instead); and with an incumbent present the
best bound is always finite, so these cases cover every return. -/
theorem c5_gap_cases_amended (o : Model → OracleResult) (c : ℕ → ℚ)
    (root : Model) (tol tl : ℚ) (fuel : ℕ) (r : BBResult)
    (h : branch_and_bound o c root tol tl fuel = some r) :
    (r.bestObjective = ⊤ → r.gap = GapVal.pinf) ∧
    (r.bestObjective ≠ ⊤ → r.bestObjective = r.bestBound → r.gap = GapVal.fin 0) ∧
    (∀ b bnd : ℚ, r.bestObjective = (b : WithTop ℚ) → r.bestBound = (bnd : WithTop ℚ) →
      r.bestObjective ≠ r.bestBound → b ≠ 0 →
      r.gap = GapVal.fin (100 * ((b - bnd) / |b|))) ∧
    (∀ b : ℚ, r.bestObjective = (b : WithTop ℚ) → r.bestObjective ≠ r.bestBound → b = 0 →
      r.gap = GapVal.zeroDivErr) ∧
    (r.bestObjective ≠ ⊤ → r.bestBound ≠ ⊤) := by
  unfold branch_and_bound at h
  obtain ⟨sf, hsf, hr⟩ := Option.map_eq_some'.mp h
  obtain ⟨hinc, _⟩ := inv_of_run o c root tol tl fuel sf hsf
  subst hr
  have hgapeq : (finalize c sf).gap =
      computeGap sf.bestObjective ((finalize c sf).bestBound) := rfl
  have hbbfin : sf.bestObjective ≠ ⊤ → (finalize c sf).bestBound ≠ ⊤ := by
    intro hbo htop
    have hle := finalize_bound_le_incumbent c sf hinc hbo
    rw [htop] at hle
    exact hbo (top_le_iff.mp hle)
  refine ⟨?_, ?_, ?_, ?_, hbbfin⟩
  · intro hbo
    have hbo2 : sf.bestObjective = ⊤ := hbo
    rw [hgapeq, hbo2, computeGap_top_left]
  · intro hbo heq
    obtain ⟨b, hb⟩ := WithTop.ne_top_iff_exists.mp hbo
    obtain ⟨bnd, hc⟩ := WithTop.ne_top_iff_exists.mp (hbbfin hbo)
    have hb2 : (b : WithTop ℚ) = sf.bestObjective := hb
    have heq2 : sf.bestObjective = (finalize c sf).bestBound := heq
    rw [hgapeq, ← hb2, ← hc, computeGap_coe_coe, if_pos (by rw [hb2, hc]; exact heq2)]
  · intro b bnd hb hc hne hb0
    have hb2 : sf.bestObjective = (b : WithTop ℚ) := hb
    have hne2 : sf.bestObjective ≠ (finalize c sf).bestBound := hne
    rw [hgapeq, hb2, hc, computeGap_coe_coe,
      if_neg (by rw [← hb2, ← hc]; exact hne2), if_neg hb0]
    exact congrArg GapVal.fin (mul_comm _ _)
  · intro b hb hne hb0
    have hb2 : sf.bestObjective = (b : WithTop ℚ) := hb
    have hne2 : sf.bestObjective ≠ (finalize c sf).bestBound := hne
    obtain ⟨bnd, hc⟩ := WithTop.ne_top_iff_exists.mp
      (hbbfin (by rw [hb2]; exact WithTop.coe_ne_top))
    rw [hgapeq, hb2, ← hc, computeGap_coe_coe,
      if_neg (by rw [← hb2, hc]; exact hne2), if_pos hb0]

/-- Witness for the amended C5 on the infeasible-root run: no incumbent was
found, and the gap is `+inf` even though best objective and best bound are
equal (both `inf`). -/
theorem c5_gap_cases_amended_witness :
    (⟨⊤, ⊤, 0, GapVal.pinf, 1⟩ : BBResult).gap = GapVal.pinf :=
  (c5_gap_cases_amended oracleInfeasible clockZero rootOneVar (1/1000000) 120 2
    ⟨⊤, ⊤, 0, GapVal.pinf, 1⟩ (by decide)).1 rfl

/-! ## C8 -/

/-- C8: with `time_limit = 0` (and a nonnegative clock) the loop's very first
time test fails, so no node is popped: the run returns immediately with
`nodesExplored = 0 ≤ 1`, `best_objective = +inf` and gap `+inf`; the second
conjunct shows the loop's time test precedes every pop in general: whenever
the elapsed time at the test is not below the limit, the loop exits with the
state unchanged except for the consumed clock reading. -/
theorem c8_zero_time_limit (o : Model → OracleResult) (c : ℕ → ℚ) (root : Model)
    (tol : ℚ) (fuel : ℕ) :
    (0 ≤ c 0 → branch_and_bound o c root tol 0 (fuel + 1) =
      some ⟨⊤, ⊤, c 1, GapVal.pinf, 0⟩) ∧
    (∀ (tl : ℚ) (s : BBState), s.stack ≠ [] → ¬ c s.tick < tl →
      bbLoop o c tol tl (fuel + 1) s = some { s with tick := s.tick + 1 }) := by
  have h2 : ∀ (tl : ℚ) (s : BBState), s.stack ≠ [] → ¬ c s.tick < tl →
      bbLoop o c tol tl (fuel + 1) s = some { s with tick := s.tick + 1 } := by
    intro tl s hne hlt
    obtain ⟨stk, bs, bo, bb, ne, an, ain, ni, tk⟩ := s
    cases stk with
    | nil => exact absurd rfl hne
    | cons e rest =>
      simp only [bbLoop]
      rw [if_neg hlt]
  refine ⟨?_, h2⟩
  intro h0
  unfold branch_and_bound
  rw [h2 0 (initState root) (by simp [initState]) (by simpa using not_lt.mpr h0)]
  show some (finalize c { initState root with tick := 0 + 1 }) = _
  simp only [finalize, initState, dictMin_nil, min_self, computeGap_top_left]

/-- Witness for C8: a concrete zero-time-limit run returns immediately with
no nodes explored, no incumbent and an infinite gap. -/
theorem c8_zero_time_limit_witness :
    branch_and_bound oracleHalf clockZero rootOneVar (1/1000000) 0 1 =
      some ⟨⊤, ⊤, 0, GapVal.pinf, 0⟩ := by
  rw [(c8_zero_time_limit oracleHalf clockZero rootOneVar (1/1000000) 0).1 (by decide)]
  rfl

/-! ## C10 -/

/-- C10 (implicit): the integral-leaf table only grows.  The invariant
`IncInv` (every recorded bound is at least the incumbent, which is itself
recorded whenever it exists) together with `FreshInv` (distinct model ids)
holds initially and is preserved by every loop iteration; moreover each
iteration keeps all existing `active_int_nodes` entries, any newly recorded
entry is strictly smaller than every previously recorded one, and whenever an
incumbent exists the minimum of the table equals `best_objective`. -/
theorem c10_int_table_monotone_min_is_incumbent :
    (∀ root : Model, IncInv (initState root) ∧ FreshInv (initState root)) ∧
    (∀ (o : Model → OracleResult) (c : ℕ → ℚ) (tol tl : ℚ) (s : BBState),
      IncInv s → FreshInv s →
      (IncInv (bbIter o c tol tl s) ∧ FreshInv (bbIter o c tol tl s)) ∧
      (∀ p ∈ s.activeIntNodes, p ∈ (bbIter o c tol tl s).activeIntNodes) ∧
      (∀ p ∈ (bbIter o c tol tl s).activeIntNodes, p ∉ s.activeIntNodes →
        ∀ q ∈ s.activeIntNodes, (p.2 : ℚ) < q.2) ∧
      ((bbIter o c tol tl s).bestObjective ≠ ⊤ →
        valuesMin (bbIter o c tol tl s).activeIntNodes =
          (bbIter o c tol tl s).bestObjective)) := by
  refine ⟨fun root => ⟨incInv_init root, freshInv_init root⟩, ?_⟩
  intro o c tol tl s hinc hfresh
  have hmain := bbIter_main o c tol tl s hinc hfresh
  refine ⟨hmain.1, hmain.2.1, hmain.2.2, ?_⟩
  intro hne
  obtain ⟨hi1, hi2, _⟩ := hmain.1.1
  obtain ⟨b, hb⟩ := WithTop.ne_top_iff_exists.mp hne
  rw [← hb]
  refine valuesMin_eq_of_bounds _ b ?_ ?_
  · intro p hp
    rw [hb]
    exact hi1 p hp
  · obtain ⟨p, hp, hval⟩ := hi2 hne
    exact ⟨p, hp, by rw [hval, ← hb]⟩

/-- Witness for C10 on the concrete `oracleX15` step from the initial state:
after recording the incumbent 7, the table minimum equals the incumbent. -/
theorem c10_int_table_monotone_min_is_incumbent_witness :
    valuesMin (bbIter oracleX15 clockZero (1/1000000) 120
        (initState rootOneVar)).activeIntNodes =
      (bbIter oracleX15 clockZero (1/1000000) 120 (initState rootOneVar)).bestObjective :=
  (c10_int_table_monotone_min_is_incumbent.2 oracleX15 clockZero (1/1000000) 120
    (initState rootOneVar) (incInv_init rootOneVar)
    (freshInv_init rootOneVar)).2.2.2 (by decide)
